import Mathlib

/-
Verification of the sync core of `exe-common/src/sync.rs` (rust-cardano).

The per-block callback of `net_sync`, its stability classifier, its local
start-point resolution and the two peer selectors are shallowly embedded
below.  Stateful code becomes explicit state passing (`SyncState`), every
call into the storage collaborator becomes an `Event` appended to an
explicit trace, fallible code (the `unwrap` calls of the source) returns
`Option`, and `u64` subtraction is modelled as checked subtraction on `Nat`.
-/

namespace CardanoSync

/-- Block date, from `cardano::block::BlockDate`: either a `Genesis` epoch
boundary marker carrying the epoch id, or a `Normal` position carrying the
epoch id and the slot index inside the epoch. -/
inductive BlockDate where
  | Genesis (epoch : Nat)
  | Normal (epoch : Nat) (slotid : Nat)
deriving DecidableEq

/-- Mirror of `BlockDate::get_epochid`. -/
def BlockDate.get_epochid : BlockDate → Nat
  | .Genesis e => e
  | .Normal e _ => e

/-- Mirror of `BlockDate::is_genesis`. -/
def BlockDate.is_genesis : BlockDate → Bool
  | .Genesis _ => true
  | .Normal _ _ => false

/-- Position of a date inside its epoch: the `Genesis` marker precedes every
`Normal` slot of the same epoch. -/
def BlockDate.slot_key : BlockDate → Nat
  | .Genesis _ => 0
  | .Normal _ s => s + 1

/-- Strict chain order on block dates: lexicographic on (epoch, position in
epoch), with the epoch's `Genesis` marker first. -/
def BlockDate.before (a b : BlockDate) : Prop :=
  a.get_epochid < b.get_epochid ∨
    (a.get_epochid = b.get_epochid ∧ a.slot_key < b.slot_key)

instance (a b : BlockDate) : Decidable (a.before b) := by
  unfold BlockDate.before; infer_instance

/-- Header hashes are modelled as plain identifiers. -/
abbrev HeaderHash := Nat

/-- Raw byte strings. -/
abbrev Bytes := List Nat

/-- Mirror of `storage::types::header_to_blockhash`: the (injective)
conversion of a header hash to the storage key for the block. -/
def header_to_blockhash (h : HeaderHash) : Bytes := [h]

/-- One block as the network collaborator delivers it to the callback of
`net_sync`: its header hash, its decoded date, and its raw bytes. -/
structure Block where
  hash : HeaderHash
  date : BlockDate
  raw : Bytes
deriving DecidableEq

/-- Mirror of `network::api::BlockRef`. -/
structure BlockRef where
  hash : HeaderHash
  date : BlockDate
deriving DecidableEq

/-- Durable tag names: the distinguished `HEAD` tag (`tag::HEAD`) and the
per-epoch tags produced by `tag::get_epoch_tag` / `format!("EPOCH_{}", n)`
(the string formatting of epoch ids is injective, so the names are modelled
as an inductive type). -/
inductive TagName where
  | head
  | epoch (n : Nat)
deriving DecidableEq

/-- Model of `storage::pack::PackWriter` (storage crate; its code is not
under src/).  Modelled from the spec: an in-memory accumulator of
(block hash, raw bytes) pairs with `init`, `append` and `finalize`. -/
structure PackWriter where
  blocks : List (Bytes × Bytes)
deriving DecidableEq

/-- Modelled from the spec: `PackWriter::init` opens an empty accumulator. -/
def PackWriter.init : PackWriter := ⟨[]⟩

/-- Modelled from the spec: `PackWriter::append(hash, raw_bytes)`. -/
def PackWriter.append (w : PackWriter) (h : Bytes) (r : Bytes) : PackWriter :=
  ⟨w.blocks ++ [(h, r)]⟩

/-- Modelled from the spec: the pack hash returned by `finalize`, a
deterministic function of the accumulated contents. -/
def pack_hash (w : PackWriter) : Bytes := w.blocks.flatMap Prod.fst

/-- One call into the storage collaborator, in the order `net_sync` makes
them.  `pack_append` records the epoch id the open accumulator is paired
with in `cur_epoch_state`. -/
inductive Event where
  | pack_append (epoch : Nat) (hash : Bytes) (raw : Bytes)
  | blob_write (hash : Bytes) (raw : Bytes)
  | persist_pack (packhash : Bytes)
  | render_index (packhash : Bytes)
  | tag_write (name : TagName) (value : Bytes)
  | epoch_create (packhash : Bytes) (epoch : Nat)
  | refpack_epoch_pack (tag : TagName)
deriving DecidableEq

/-- Loop state of `net_sync`: the two mutable locals `cur_epoch_state`
(minus its logging-only `SystemTime`) and `last_block`, plus the trace of
storage calls made so far. -/
structure SyncState where
  cur_epoch_state : Option (Nat × PackWriter)
  last_block : Option HeaderHash
  events : List Event
deriving DecidableEq

/-- Storage calls of the boundary flush, in source order (sync.rs lines
62-82): `finalize` (which persists the pack under a path derived from its
hash — modelled from the spec, the pack writer's code is not under src/),
`create_index` + `render_permanent` at the index path of the pack hash, the
`EPOCH_<n>` tag write, `epoch_create`, the refpack rebuild for the epoch's
tag, and the `HEAD` checkpoint at the previous block.  Note the source does
not clear `cur_epoch_state` afterwards. -/
def flush_events (epoch_id : Nat) (w : PackWriter) (prev : HeaderHash) : List Event :=
  [ .persist_pack (pack_hash w),
    .render_index (pack_hash w),
    .tag_write (.epoch epoch_id) (pack_hash w),
    .epoch_create (pack_hash w) epoch_id,
    .refpack_epoch_pack (.epoch epoch_id),
    .tag_write .head (header_to_blockhash prev) ]

/-- Stability routing of one block (sync.rs lines 84-100), run after the
boundary flush: an unstable block (`epoch ≥ first_unstable_epoch`) is
written to the loose-block store; a stable block opens a fresh accumulator
when it is a genesis marker and is then appended to the open accumulator,
`none` modelling the `cur_epoch_state.as_mut().unwrap()` panic. -/
def route (fue : Nat) (s : SyncState) (fe : List Event) (b : Block) : Option SyncState :=
  if fue ≤ b.date.get_epochid then
    some { cur_epoch_state := s.cur_epoch_state,
           last_block := some b.hash,
           events := s.events ++ fe ++
             [.blob_write (header_to_blockhash b.hash) b.raw] }
  else
    match (if b.date.is_genesis then some (b.date.get_epochid, PackWriter.init)
           else s.cur_epoch_state) with
    | none => none
    | some (e, w) =>
      some { cur_epoch_state := some (e, w.append (header_to_blockhash b.hash) b.raw),
             last_block := some b.hash,
             events := s.events ++ fe ++
               [.pack_append e (header_to_blockhash b.hash) b.raw] }

/-- One iteration of the per-block callback of `net_sync` (sync.rs lines
58-105): flush the previous epoch if this block is a genesis marker and an
accumulator is open (`none` modelling the `last_block.as_ref().unwrap()`
panic), then route the block, then record it as last block. -/
def step (fue : Nat) (s : SyncState) (b : Block) : Option SyncState :=
  if b.date.is_genesis then
    match s.cur_epoch_state with
    | some (epoch_id, w) =>
      match s.last_block with
      | some prev => route fue s (flush_events epoch_id w prev) b
      | none => none
    | none => route fue s [] b
  else route fue s [] b

/-- The callback loop over the delivered block stream. -/
def run_blocks (fue : Nat) (s : SyncState) : List Block → Option SyncState
  | [] => some s
  | b :: bs =>
    match step fue s b with
    | none => none
    | some s2 => run_blocks fue s2 bs

/-- Initial loop state: no accumulator, no last block, nothing written. -/
def init_state : SyncState := ⟨none, none, []⟩

/-- The callback loop followed by the final `HEAD` update (sync.rs lines
107-110): written only when at least one block was delivered. -/
def net_sync_loop (fue : Nat) (blocks : List Block) : Option SyncState :=
  match run_blocks fue init_state blocks with
  | none => none
  | some s =>
    match s.last_block with
    | none => some s
    | some h => some { s with events := s.events ++
        [.tag_write .head (header_to_blockhash h)] }

/-- Checked `Nat` subtraction modelling Rust `u64` subtraction: `none` when
the subtrahend exceeds the minuend (a panic in debug builds, wraparound in
release builds). -/
def checked_sub (a b : Nat) : Option Nat := if b ≤ a then some (a - b) else none

/-- Stability classifier of `net_sync` (sync.rs lines 47-51):
`first_unstable_epoch = tip.date.get_epochid() - offset` with the offset
match inlined as in the source. -/
def first_unstable_epoch (tip : BlockDate) (k : Nat) : Option Nat :=
  checked_sub tip.get_epochid
    (match tip with
     | .Genesis _ => 1
     | .Normal _ slotid => if slotid ≤ k then 1 else 0)

/-- The offset exactly as the spec words it: 1 for a `Genesis` tip or a
`Normal` tip with slot index ≤ k, otherwise 0. -/
def offset_spec (tip : BlockDate) (k : Nat) : Nat :=
  match tip with
  | .Genesis _ => 1
  | .Normal _ slotid => if slotid ≤ k then 1 else 0

/-- Result of the local start-point resolution: the block reference to
fetch from, whether the lower bound is inclusive, and whether the
stale-HEAD warning was logged. -/
structure StartResolution where
  ref : BlockRef
  inclusive : Bool
  warned : Bool
deriving DecidableEq

/-- Local start-point resolution of `net_sync` (sync.rs lines 24-40),
parameterised by the configured genesis reference, the stored `HEAD` tag,
the block store lookup and the block decoder; `none` models the
`block.decode().unwrap()` panic. -/
def resolve_local_start (genesis : HeaderHash) (epoch_start : Nat)
    (head_tag : Option HeaderHash) (block_read : HeaderHash → Option Bytes)
    (decode : Bytes → Option BlockDate) : Option StartResolution :=
  match head_tag with
  | none => some ⟨⟨genesis, .Genesis epoch_start⟩, true, false⟩
  | some head_hash =>
    match block_read head_hash with
    | none => some ⟨⟨genesis, .Genesis epoch_start⟩, true, true⟩
    | some raw =>
      match decode raw with
      | none => none
      | some date => some ⟨⟨head_hash, date⟩, false, false⟩

/-- Transport kind of a configured peer (config crate; modelled from the
spec: each peer carries a name, a transport kind and an address). -/
inductive TransportKind where
  | http
  | native
deriving DecidableEq

/-- One configured peer; names and addresses are opaque identifiers. -/
structure PeerCfg where
  name : Nat
  kind : TransportKind
  addr : Nat
deriving DecidableEq

/-- Mirror of `config::net::Peer::is_http`. -/
def PeerCfg.is_http (p : PeerCfg) : Bool := p.kind = TransportKind.http

/-- Mirror of `config::net::Peer::is_native`. -/
def PeerCfg.is_native (p : PeerCfg) : Bool := p.kind = TransportKind.native

/-- The slice of `config::net::Config` the peer selectors read. -/
structure NetConfig where
  peers : List PeerCfg
  protocol_magic : Nat
deriving DecidableEq

/-- A connected peer as `network::Peer::new` builds it (network crate;
modelled from the spec: blockchain name, peer name, peer address, protocol
magic — identifiers are opaque). -/
structure Peer where
  blockchain : Nat
  peer_name : Nat
  addr : Nat
  magic : Nat
deriving DecidableEq

/-- Modelled from the spec: `Peer::new(blockchain, name, address, magic)`. -/
def peer_new (blockchain : Nat) (p : PeerCfg) (magic : Nat) : Peer :=
  ⟨blockchain, p.name, p.addr, magic⟩

/-- The `for` loop of `get_http_peer` (sync.rs lines 126-139): first
configured peer whose transport is http; `none` models the
`panic` on a configuration with no http peer. -/
def get_http_peer_loop (blockchain : Nat) (magic : Nat) : List PeerCfg → Option Peer
  | [] => none
  | p :: ps =>
    if p.is_http then some (peer_new blockchain p magic)
    else get_http_peer_loop blockchain magic ps

/-- Mirror of `get_http_peer`. -/
def get_http_peer (blockchain : Nat) (cfg : NetConfig) : Option Peer :=
  get_http_peer_loop blockchain cfg.protocol_magic cfg.peers

/-- The `for` loop of `get_native_peer` (sync.rs lines 141-154): first
configured peer whose transport is native; `none` models the
`panic` on a configuration with no native peer. -/
def get_native_peer_loop (blockchain : Nat) (magic : Nat) : List PeerCfg → Option Peer
  | [] => none
  | p :: ps =>
    if p.is_native then some (peer_new blockchain p magic)
    else get_native_peer_loop blockchain magic ps

/-- Mirror of `get_native_peer`. -/
def get_native_peer (blockchain : Nat) (cfg : NetConfig) : Option Peer :=
  get_native_peer_loop blockchain cfg.protocol_magic cfg.peers

/-- Replay of the tag writes of a trace over a tag store, to state frame
properties about the `HEAD` and `EPOCH_<n>` tags. -/
def apply_event (store : TagName → Option Bytes) : Event → (TagName → Option Bytes)
  | .tag_write n v => fun m => if m = n then some v else store m
  | _ => store

/-- Replay of a whole trace over a tag store. -/
def apply_events (store : TagName → Option Bytes) (es : List Event) : TagName → Option Bytes :=
  es.foldl apply_event store

/-- Delivery-order side condition the source relies on (spec section 4.3):
every stable non-genesis block in the stream is preceded by a genesis
block of its own epoch; `seen` accumulates the already-delivered prefix. -/
def gen_precedes (fue : Nat) : List Block → List Block → Bool
  | _, [] => true
  | seen, b :: r =>
    (if b.date.get_epochid < fue ∧ b.date.is_genesis = false then
        seen.any (fun g => decide (g.date = BlockDate.Genesis b.date.get_epochid))
     else true)
    && gen_precedes fue (seen ++ [b]) r

/-- C3: for every network tip date and stability depth k, `net_sync`
computes `first_unstable_epoch = tip.epoch - offset`, where the offset is 1
when the tip's date is a Genesis marker or is Normal with slot index ≤ k,
and 0 otherwise (stated for the non-underflowing inputs; the concrete
boundary examples are checked in the witness). -/
theorem c3_stability_formula :
    ∀ tip k, offset_spec tip k ≤ tip.get_epochid →
      first_unstable_epoch tip k = some (tip.get_epochid - offset_spec tip k) := by
  intro tip k h
  cases tip with
  | Genesis e =>
    simp only [offset_spec, BlockDate.get_epochid] at h ⊢
    simp [first_unstable_epoch, checked_sub, BlockDate.get_epochid, h]
  | Normal e s =>
    by_cases hs : s ≤ k
    · simp only [offset_spec, BlockDate.get_epochid, if_pos hs] at h ⊢
      simp [first_unstable_epoch, checked_sub, BlockDate.get_epochid, hs, h]
    · simp only [offset_spec, BlockDate.get_epochid, if_neg hs] at h ⊢
      simp [first_unstable_epoch, checked_sub, BlockDate.get_epochid, hs]

/-- Witness for C3: the three boundary examples of the spec, for k = 10. -/
theorem c3_stability_formula_witness :
    first_unstable_epoch (.Normal 5 3) 10 = some 4 ∧
    first_unstable_epoch (.Normal 5 50) 10 = some 5 ∧
    first_unstable_epoch (.Genesis 5) 10 = some 4 := by
  refine ⟨?_, ?_, ?_⟩
  · simpa using c3_stability_formula (.Normal 5 3) 10 (by decide)
  · simpa using c3_stability_formula (.Normal 5 50) 10 (by decide)
  · simpa using c3_stability_formula (.Genesis 5) 10 (by decide)

/-- C10: the stability computation is well-defined exactly when
`tip.epoch ≥ offset`; at a `Genesis(0)` tip, or a `Normal` tip with epoch 0
and slot index ≤ k, the unsigned subtraction underflows (modelled as
`none`: a panic in debug builds, wraparound in release builds). -/
theorem c10_epoch_zero_underflow :
    (∀ tip k, (first_unstable_epoch tip k).isSome = true ↔
        offset_spec tip k ≤ tip.get_epochid) ∧
    (∀ k, first_unstable_epoch (.Genesis 0) k = none) ∧
    (∀ k s, s ≤ k → first_unstable_epoch (.Normal 0 s) k = none) := by
  refine ⟨?_, ?_, ?_⟩
  · intro tip k
    cases tip with
    | Genesis e =>
      by_cases h : 1 ≤ e <;>
        simp [first_unstable_epoch, checked_sub, offset_spec, BlockDate.get_epochid, h]
    | Normal e s =>
      by_cases hs : s ≤ k <;>
        by_cases h : 1 ≤ e <;>
          simp [first_unstable_epoch, checked_sub, offset_spec, BlockDate.get_epochid, hs, h]
  · intro k
    simp [first_unstable_epoch, checked_sub, BlockDate.get_epochid]
  · intro k s hs
    simp [first_unstable_epoch, checked_sub, BlockDate.get_epochid, hs]

/-- Witness for C10: both underflowing tip shapes at concrete inputs. -/
theorem c10_epoch_zero_underflow_witness :
    first_unstable_epoch (.Genesis 0) 10 = none ∧
    first_unstable_epoch (.Normal 0 3) 10 = none := by
  exact ⟨c10_epoch_zero_underflow.2.1 10, c10_epoch_zero_underflow.2.2 10 3 (by decide)⟩

/-- C6: the local start point is resolved in exactly three cases: no `HEAD`
tag gives the genesis reference with inclusive fetch and no warning; a
`HEAD` tag naming an absent block logs the warning and falls back to the
same genesis reference, without failing; a `HEAD` tag naming a present,
decodable block gives that hash with the block's decoded date and an
exclusive fetch. -/
theorem c6_local_start_resolution :
    ∀ (genesis : HeaderHash) (epoch_start : Nat)
      (block_read : HeaderHash → Option Bytes) (decode : Bytes → Option BlockDate),
      (resolve_local_start genesis epoch_start none block_read decode =
        some ⟨⟨genesis, .Genesis epoch_start⟩, true, false⟩) ∧
      (∀ hh, block_read hh = none →
        resolve_local_start genesis epoch_start (some hh) block_read decode =
          some ⟨⟨genesis, .Genesis epoch_start⟩, true, true⟩) ∧
      (∀ hh raw d, block_read hh = some raw → decode raw = some d →
        resolve_local_start genesis epoch_start (some hh) block_read decode =
          some ⟨⟨hh, d⟩, false, false⟩) := by
  intro g es br dec
  refine ⟨rfl, ?_, ?_⟩
  · intro hh h
    simp [resolve_local_start, h]
  · intro hh raw d h1 h2
    simp [resolve_local_start, h1, h2]

/-- Witness for C6: the three cases at concrete inputs. -/
theorem c6_local_start_resolution_witness :
    resolve_local_start 7 0 none (fun _ => none) (fun _ => none) =
      some ⟨⟨7, .Genesis 0⟩, true, false⟩ ∧
    resolve_local_start 7 0 (some 5) (fun _ => none) (fun _ => none) =
      some ⟨⟨7, .Genesis 0⟩, true, true⟩ ∧
    resolve_local_start 7 0 (some 5) (fun _ => some [1]) (fun _ => some (.Normal 2 3)) =
      some ⟨⟨5, .Normal 2 3⟩, false, false⟩ := by
  refine ⟨(c6_local_start_resolution 7 0 _ _).1,
          (c6_local_start_resolution 7 0 _ _).2.1 5 rfl,
          (c6_local_start_resolution 7 0 _ _).2.2 5 [1] (.Normal 2 3) rfl rfl⟩

/-- C7: when the network delivers zero blocks the callback loop makes no
storage call at all — the trace is empty, so replaying it leaves every tag
(`HEAD` and all `EPOCH_<n>`) exactly as it was. -/
theorem c7_zero_blocks_frame :
    ∀ fue, net_sync_loop fue [] = some init_state ∧ init_state.events = [] ∧
      ∀ store : TagName → Option Bytes, apply_events store init_state.events = store := by
  intro fue
  exact ⟨rfl, rfl, fun store => rfl⟩

theorem get_http_peer_loop_some (bl magic : Nat) :
    ∀ l q, get_http_peer_loop bl magic l = some q →
      ∃ l1 pc l2, l = l1 ++ pc :: l2 ∧ (∀ x ∈ l1, x.is_http = false) ∧
        pc.is_http = true ∧ q = peer_new bl pc magic := by
  intro l
  induction l with
  | nil => intro q h; simp [get_http_peer_loop] at h
  | cons p ps ih =>
    intro q h
    by_cases hp : p.is_http = true
    · refine ⟨[], p, ps, rfl, by simp, hp, ?_⟩
      rw [get_http_peer_loop, if_pos hp] at h
      exact (Option.some_inj.mp h).symm
    · rw [get_http_peer_loop, if_neg hp] at h
      obtain ⟨l1, pc, l2, rfl, h1, h2, h3⟩ := ih q h
      refine ⟨p :: l1, pc, l2, rfl, ?_, h2, h3⟩
      intro x hx
      rcases List.mem_cons.mp hx with rfl | hx
      · exact Bool.not_eq_true _ ▸ eq_false_of_ne_true hp
      · exact h1 x hx

theorem get_http_peer_loop_none (bl magic : Nat) :
    ∀ l, get_http_peer_loop bl magic l = none ↔ ∀ x ∈ l, x.is_http = false := by
  intro l
  induction l with
  | nil => simp [get_http_peer_loop]
  | cons p ps ih =>
    by_cases hp : p.is_http = true
    · simp [get_http_peer_loop, hp]
    · rw [get_http_peer_loop, if_neg hp, ih]
      constructor
      · intro h x hx
        rcases List.mem_cons.mp hx with rfl | hx
        · exact eq_false_of_ne_true hp
        · exact h x hx
      · intro h x hx
        exact h x (List.mem_cons_of_mem _ hx)

theorem get_native_peer_loop_some (bl magic : Nat) :
    ∀ l q, get_native_peer_loop bl magic l = some q →
      ∃ l1 pc l2, l = l1 ++ pc :: l2 ∧ (∀ x ∈ l1, x.is_native = false) ∧
        pc.is_native = true ∧ q = peer_new bl pc magic := by
  intro l
  induction l with
  | nil => intro q h; simp [get_native_peer_loop] at h
  | cons p ps ih =>
    intro q h
    by_cases hp : p.is_native = true
    · refine ⟨[], p, ps, rfl, by simp, hp, ?_⟩
      rw [get_native_peer_loop, if_pos hp] at h
      exact (Option.some_inj.mp h).symm
    · rw [get_native_peer_loop, if_neg hp] at h
      obtain ⟨l1, pc, l2, rfl, h1, h2, h3⟩ := ih q h
      refine ⟨p :: l1, pc, l2, rfl, ?_, h2, h3⟩
      intro x hx
      rcases List.mem_cons.mp hx with rfl | hx
      · exact eq_false_of_ne_true hp
      · exact h1 x hx

theorem get_native_peer_loop_none (bl magic : Nat) :
    ∀ l, get_native_peer_loop bl magic l = none ↔ ∀ x ∈ l, x.is_native = false := by
  intro l
  induction l with
  | nil => simp [get_native_peer_loop]
  | cons p ps ih =>
    by_cases hp : p.is_native = true
    · simp [get_native_peer_loop, hp]
    · rw [get_native_peer_loop, if_neg hp, ih]
      constructor
      · intro h x hx
        rcases List.mem_cons.mp hx with rfl | hx
        · exact eq_false_of_ne_true hp
        · exact h x hx
      · intro h x hx
        exact h x (List.mem_cons_of_mem _ hx)

/-- C9: `get_http_peer` (resp. `get_native_peer`) returns the peer built
from the first configured peer of the requested transport, scanning in list
order — every peer before the chosen one fails the transport test, the
chosen one passes it — and fails (the fatal configuration panic, modelled
as `none`) exactly when no configured peer has that transport. -/
theorem c9_peer_selection :
    ∀ (bl : Nat) (cfg : NetConfig),
      ((∀ q, get_http_peer bl cfg = some q →
          ∃ l1 pc l2, cfg.peers = l1 ++ pc :: l2 ∧ (∀ x ∈ l1, x.is_http = false) ∧
            pc.is_http = true ∧ q = peer_new bl pc cfg.protocol_magic) ∧
        (get_http_peer bl cfg = none ↔ ∀ x ∈ cfg.peers, x.is_http = false)) ∧
      ((∀ q, get_native_peer bl cfg = some q →
          ∃ l1 pc l2, cfg.peers = l1 ++ pc :: l2 ∧ (∀ x ∈ l1, x.is_native = false) ∧
            pc.is_native = true ∧ q = peer_new bl pc cfg.protocol_magic) ∧
        (get_native_peer bl cfg = none ↔ ∀ x ∈ cfg.peers, x.is_native = false)) := by
  intro bl cfg
  exact ⟨⟨fun q h => get_http_peer_loop_some bl cfg.protocol_magic cfg.peers q h,
          get_http_peer_loop_none bl cfg.protocol_magic cfg.peers⟩,
         ⟨fun q h => get_native_peer_loop_some bl cfg.protocol_magic cfg.peers q h,
          get_native_peer_loop_none bl cfg.protocol_magic cfg.peers⟩⟩

/-- Witness for C9: a three-peer configuration whose first http peer sits
behind a native one, and a configuration with no native peer. -/
theorem c9_peer_selection_witness :
    (∃ l1 pc l2,
        ([⟨1, .native, 11⟩, ⟨2, .http, 12⟩, ⟨3, .http, 13⟩] : List PeerCfg) =
          l1 ++ pc :: l2 ∧ (∀ x ∈ l1, x.is_http = false) ∧ pc.is_http = true ∧
          Peer.mk 9 2 12 7 = peer_new 9 pc 7) ∧
    get_native_peer 9 ⟨[⟨2, .http, 12⟩], 7⟩ = none := by
  constructor
  · exact (c9_peer_selection 9 ⟨[⟨1, .native, 11⟩, ⟨2, .http, 12⟩, ⟨3, .http, 13⟩], 7⟩).1.1
      (Peer.mk 9 2 12 7) rfl
  · exact (c9_peer_selection 9 ⟨[⟨2, .http, 12⟩], 7⟩).2.2.mpr (by decide)

theorem route_eq_unstable {fue : Nat} {s : SyncState} {fe : List Event} {b : Block}
    (hu : fue ≤ b.date.get_epochid) :
    route fue s fe b = some ⟨s.cur_epoch_state, some b.hash,
      s.events ++ fe ++ [.blob_write (header_to_blockhash b.hash) b.raw]⟩ := by
  simp [route, hu]

theorem route_eq_stable_genesis {fue : Nat} {s : SyncState} {fe : List Event} {b : Block}
    (hu : b.date.get_epochid < fue) (hg : b.date.is_genesis = true) :
    route fue s fe b = some ⟨some (b.date.get_epochid,
        PackWriter.init.append (header_to_blockhash b.hash) b.raw), some b.hash,
      s.events ++ fe ++ [.pack_append b.date.get_epochid (header_to_blockhash b.hash) b.raw]⟩ := by
  have hn : ¬ fue ≤ b.date.get_epochid := Nat.not_le.mpr hu
  simp [route, hn, hg]

theorem route_eq_stable_cont {fue : Nat} {s : SyncState} {fe : List Event} {b : Block}
    {n : Nat} {w : PackWriter}
    (hu : b.date.get_epochid < fue) (hg : b.date.is_genesis = false)
    (hc : s.cur_epoch_state = some (n, w)) :
    route fue s fe b = some ⟨some (n, w.append (header_to_blockhash b.hash) b.raw),
      some b.hash,
      s.events ++ fe ++ [.pack_append n (header_to_blockhash b.hash) b.raw]⟩ := by
  have hn : ¬ fue ≤ b.date.get_epochid := Nat.not_le.mpr hu
  simp [route, hn, hg, hc]

theorem route_eq_stable_none {fue : Nat} {s : SyncState} {fe : List Event} {b : Block}
    (hu : b.date.get_epochid < fue) (hg : b.date.is_genesis = false)
    (hc : s.cur_epoch_state = none) :
    route fue s fe b = none := by
  have hn : ¬ fue ≤ b.date.get_epochid := Nat.not_le.mpr hu
  simp [route, hn, hg, hc]

theorem step_eq_no_flush {fue : Nat} {s : SyncState} {b : Block}
    (hg : b.date.is_genesis = false) :
    step fue s b = route fue s [] b := by
  simp [step, hg]

theorem step_eq_genesis_no_acc {fue : Nat} {s : SyncState} {b : Block}
    (hg : b.date.is_genesis = true) (hc : s.cur_epoch_state = none) :
    step fue s b = route fue s [] b := by
  simp [step, hg, hc]

theorem step_eq_flush {fue : Nat} {s : SyncState} {b : Block} {n : Nat}
    {w : PackWriter} {prev : HeaderHash}
    (hg : b.date.is_genesis = true) (hc : s.cur_epoch_state = some (n, w))
    (hl : s.last_block = some prev) :
    step fue s b = route fue s (flush_events n w prev) b := by
  simp [step, hg, hc, hl]

theorem step_eq_flush_no_last {fue : Nat} {s : SyncState} {b : Block} {n : Nat}
    {w : PackWriter}
    (hg : b.date.is_genesis = true) (hc : s.cur_epoch_state = some (n, w))
    (hl : s.last_block = none) :
    step fue s b = none := by
  simp [step, hg, hc, hl]

theorem route_last_block {fue : Nat} {s s2 : SyncState} {fe : List Event} {b : Block}
    (h : route fue s fe b = some s2) : s2.last_block = some b.hash := by
  by_cases hu : fue ≤ b.date.get_epochid
  · rw [route_eq_unstable hu] at h
    rw [← Option.some_inj.mp h]
  · have hu' : b.date.get_epochid < fue := Nat.not_le.mp hu
    by_cases hg : b.date.is_genesis = true
    · rw [route_eq_stable_genesis hu' hg] at h
      rw [← Option.some_inj.mp h]
    · have hg' : b.date.is_genesis = false := eq_false_of_ne_true hg
      rcases hc : s.cur_epoch_state with _ | ⟨n, w⟩
      · rw [route_eq_stable_none hu' hg' hc] at h
        exact absurd h (by simp)
      · rw [route_eq_stable_cont hu' hg' hc] at h
        rw [← Option.some_inj.mp h]

theorem step_last_block {fue : Nat} {s s2 : SyncState} {b : Block}
    (h : step fue s b = some s2) : s2.last_block = some b.hash := by
  by_cases hg : b.date.is_genesis = true
  · rcases hc : s.cur_epoch_state with _ | ⟨n, w⟩
    · rw [step_eq_genesis_no_acc hg hc] at h
      exact route_last_block h
    · rcases hl : s.last_block with _ | prev
      · rw [step_eq_flush_no_last hg hc hl] at h
        exact absurd h (by simp)
      · rw [step_eq_flush hg hc hl] at h
        exact route_last_block h
  · rw [step_eq_no_flush (eq_false_of_ne_true hg)] at h
    exact route_last_block h

theorem run_blocks_last {fue : Nat} :
    ∀ (bs : List Block) (s s2 : SyncState), run_blocks fue s bs = some s2 →
      ∀ lb, bs.getLast? = some lb → s2.last_block = some lb.hash := by
  intro bs
  induction bs with
  | nil =>
    intro s s2 h lb hl
    exact absurd hl (by simp)
  | cons b r ih =>
    intro s s2 h lb hl
    rw [run_blocks] at h
    rcases hs : step fue s b with _ | s1 <;> rw [hs] at h
    · exact absurd h (by simp)
    · rcases r with _ | ⟨b2, r2⟩
      · have hb : b = lb := by simpa using hl
        have hs2 : s1 = s2 := Option.some_inj.mp (by simpa [run_blocks] using h)
        rw [← hb, ← hs2]
        exact step_last_block hs
      · have hl2 : (b2 :: r2).getLast? = some lb := by
          rwa [List.getLast?_cons_cons] at hl
        exact ih s1 s2 h lb hl2

/-- C1: after the callback loop ends, if at least one block was delivered
then `net_sync` appends exactly one more storage call — the `HEAD` tag
write with the hash of the last block delivered — and a still-open
accumulator is left untouched: no pack, no index, no `EPOCH` tag, no other
storage write is produced at stream end. -/
theorem c1_final_head_only (fue : Nat) (blocks : List Block) (s : SyncState)
    (hrun : run_blocks fue init_state blocks = some s)
    (lb : Block) (hlast : blocks.getLast? = some lb) :
    ∃ s2, net_sync_loop fue blocks = some s2 ∧
      s2.events = s.events ++ [.tag_write .head (header_to_blockhash lb.hash)] ∧
      s2.cur_epoch_state = s.cur_epoch_state ∧
      s2.last_block = s.last_block := by
  have hl : s.last_block = some lb.hash := run_blocks_last blocks init_state s hrun lb hlast
  have hloop : net_sync_loop fue blocks =
      some { s with events := s.events ++ [.tag_write .head (header_to_blockhash lb.hash)] } := by
    unfold net_sync_loop
    rw [hrun]
    simp [hl]
  exact ⟨_, hloop, rfl, rfl, rfl⟩

/-- Witness for C1: a one-block stream whose single stable genesis block
leaves an accumulator open; stream end adds only the `HEAD` write and the
open accumulator survives unfinalized. -/
theorem c1_final_head_only_witness :
    ∃ s2, net_sync_loop 5 [⟨1, .Genesis 0, [9]⟩] = some s2 ∧
      s2.events = [.pack_append 0 [1] [9], .tag_write .head [1]] ∧
      s2.cur_epoch_state = some (0, ⟨[([1], [9])]⟩) := by
  obtain ⟨s2, h1, h2, h3, _⟩ := c1_final_head_only 5 [⟨1, .Genesis 0, [9]⟩]
    ⟨some (0, ⟨[([1], [9])]⟩), some 1, [.pack_append 0 [1] [9]]⟩ (by decide)
    ⟨1, .Genesis 0, [9]⟩ rfl
  refine ⟨s2, h1, ?_, ?_⟩
  · rw [h2]
    decide
  · rw [h3]

/-- C4: a genesis-dated block arriving while an accumulator is open for
epoch n triggers the full boundary flush, in source order: pack persisted
under its hash (inside finalize), index rendered permanent at the pack
hash's path, tag `EPOCH_n` written with the pack hash, the epoch-to-pack
association registered, the epoch's refpack rebuilt, and `HEAD`
checkpointed to the hash of the block processed immediately before this
genesis block — followed only by this block's own routing. -/
theorem c4_boundary_flush (fue : Nat) (p : List Block) (s : SyncState) (n : Nat)
    (w : PackWriter) (pb : Block) (g : Block)
    (hrun : run_blocks fue init_state p = some s)
    (hacc : s.cur_epoch_state = some (n, w))
    (hlast : p.getLast? = some pb)
    (hg : g.date.is_genesis = true) :
    s.last_block = some pb.hash ∧
    ∃ s2, step fue s g = some s2 ∧
      s2.events = s.events ++
        [ .persist_pack (pack_hash w), .render_index (pack_hash w),
          .tag_write (.epoch n) (pack_hash w), .epoch_create (pack_hash w) n,
          .refpack_epoch_pack (.epoch n), .tag_write .head (header_to_blockhash pb.hash) ] ++
        (if fue ≤ g.date.get_epochid then
           [.blob_write (header_to_blockhash g.hash) g.raw]
         else [.pack_append g.date.get_epochid (header_to_blockhash g.hash) g.raw]) := by
  have hl : s.last_block = some pb.hash := run_blocks_last p init_state s hrun pb hlast
  refine ⟨hl, ?_⟩
  rw [step_eq_flush hg hacc hl]
  by_cases hu : fue ≤ g.date.get_epochid
  · rw [route_eq_unstable hu, if_pos hu]
    exact ⟨_, rfl, rfl⟩
  · rw [route_eq_stable_genesis (Nat.not_le.mp hu) hg, if_neg hu]
    exact ⟨_, rfl, rfl⟩

/-- Witness for C4: after one stable genesis block of epoch 0, the genesis
block of epoch 1 (still stable for fue = 2) flushes epoch 0 and then opens
and appends to the fresh epoch-1 accumulator. -/
theorem c4_boundary_flush_witness :
    ∃ s2, step 2 ⟨some (0, ⟨[([1], [9])]⟩), some 1, [.pack_append 0 [1] [9]]⟩
        ⟨2, .Genesis 1, [8]⟩ = some s2 ∧
      s2.events = [.pack_append 0 [1] [9], .persist_pack [1], .render_index [1],
        .tag_write (.epoch 0) [1], .epoch_create [1] 0, .refpack_epoch_pack (.epoch 0),
        .tag_write .head [1], .pack_append 1 [2] [8]] := by
  obtain ⟨_, s2, h1, h2⟩ := c4_boundary_flush 2 [⟨1, .Genesis 0, [9]⟩]
    ⟨some (0, ⟨[([1], [9])]⟩), some 1, [.pack_append 0 [1] [9]]⟩ 0 ⟨[([1], [9])]⟩
    ⟨1, .Genesis 0, [9]⟩ ⟨2, .Genesis 1, [8]⟩ (by decide) rfl rfl rfl
  refine ⟨s2, h1, ?_⟩
  rw [h2]
  decide

theorem step_acc_none {fue : Nat} {s s2 : SyncState} {b : Block}
    (h : step fue s b = some s2) (hn : s2.cur_epoch_state = none) :
    s.cur_epoch_state = none ∧ fue ≤ b.date.get_epochid := by
  by_cases hu : fue ≤ b.date.get_epochid
  · refine ⟨?_, hu⟩
    by_cases hg : b.date.is_genesis = true
    · rcases hc : s.cur_epoch_state with _ | ⟨n, w⟩
      · rfl
      · rcases hl : s.last_block with _ | prev
        · rw [step_eq_flush_no_last hg hc hl] at h
          exact absurd h (by simp)
        · rw [step_eq_flush hg hc hl, route_eq_unstable hu] at h
          cases Option.some_inj.mp h
          simp [hc] at hn
    · rw [step_eq_no_flush (eq_false_of_ne_true hg), route_eq_unstable hu] at h
      cases Option.some_inj.mp h
      simpa using hn
  · exfalso
    have hu' : b.date.get_epochid < fue := Nat.not_le.mp hu
    by_cases hg : b.date.is_genesis = true
    · rcases hc : s.cur_epoch_state with _ | ⟨n, w⟩
      · rw [step_eq_genesis_no_acc hg hc, route_eq_stable_genesis hu' hg] at h
        cases Option.some_inj.mp h
        simp at hn
      · rcases hl : s.last_block with _ | prev
        · rw [step_eq_flush_no_last hg hc hl] at h
          exact absurd h (by simp)
        · rw [step_eq_flush hg hc hl, route_eq_stable_genesis hu' hg] at h
          cases Option.some_inj.mp h
          simp at hn
    · have hg' : b.date.is_genesis = false := eq_false_of_ne_true hg
      rcases hc : s.cur_epoch_state with _ | ⟨n, w⟩
      · rw [step_eq_no_flush hg', route_eq_stable_none hu' hg' hc] at h
        exact absurd h (by simp)
      · rw [step_eq_no_flush hg', route_eq_stable_cont hu' hg' hc] at h
        cases Option.some_inj.mp h
        simp at hn

theorem step_some_of {fue : Nat} {s : SyncState} {b : Block}
    (hflush : b.date.is_genesis = true → s.cur_epoch_state ≠ none → s.last_block ≠ none)
    (hstable : b.date.get_epochid < fue → b.date.is_genesis = false →
      s.cur_epoch_state ≠ none) :
    ∃ s2, step fue s b = some s2 := by
  by_cases hg : b.date.is_genesis = true
  · rcases hc : s.cur_epoch_state with _ | ⟨n, w⟩
    · rw [step_eq_genesis_no_acc hg hc]
      by_cases hu : fue ≤ b.date.get_epochid
      · exact ⟨_, route_eq_unstable hu⟩
      · exact ⟨_, route_eq_stable_genesis (Nat.not_le.mp hu) hg⟩
    · rcases hl : s.last_block with _ | prev
      · exact absurd hl (hflush hg (by rw [hc]; simp))
      · rw [step_eq_flush hg hc hl]
        by_cases hu : fue ≤ b.date.get_epochid
        · exact ⟨_, route_eq_unstable hu⟩
        · exact ⟨_, route_eq_stable_genesis (Nat.not_le.mp hu) hg⟩
  · have hg' : b.date.is_genesis = false := eq_false_of_ne_true hg
    rw [step_eq_no_flush hg']
    by_cases hu : fue ≤ b.date.get_epochid
    · exact ⟨_, route_eq_unstable hu⟩
    · rcases hc : s.cur_epoch_state with _ | ⟨n, w⟩
      · exact absurd hc (hstable (Nat.not_le.mp hu) hg')
      · exact ⟨_, route_eq_stable_cont (Nat.not_le.mp hu) hg' hc⟩

theorem run_no_panic (fue : Nat) :
    ∀ (rest p : List Block) (s : SyncState),
      gen_precedes fue p rest = true →
      (s.cur_epoch_state = none →
        ∀ g ∈ p, ¬(g.date = BlockDate.Genesis g.date.get_epochid ∧
          g.date.get_epochid < fue)) →
      (s.cur_epoch_state ≠ none → s.last_block ≠ none) →
      (run_blocks fue s rest).isSome = true := by
  intro rest
  induction rest with
  | nil =>
    intro p s _ _ _
    simp [run_blocks]
  | cons b r ih =>
    intro p s hgp hA hB
    rw [gen_precedes, Bool.and_eq_true] at hgp
    obtain ⟨hb, hr⟩ := hgp
    obtain ⟨s2, hs2⟩ := step_some_of
      (fun _ hacc => hB hacc)
      (fun hlt hng => by
        intro hacc
        rw [if_pos ⟨hlt, hng⟩] at hb
        obtain ⟨g, hgmem, hgd⟩ := List.any_eq_true.mp hb
        have hgd' : g.date = BlockDate.Genesis b.date.get_epochid := of_decide_eq_true hgd
        refine hA hacc g hgmem ⟨?_, ?_⟩
        · rw [hgd']
          rfl
        · rw [hgd']
          exact hlt)
    rw [run_blocks, hs2]
    refine ih (p ++ [b]) s2 hr ?_ ?_
    · intro hn g hg
      obtain ⟨hc, hu⟩ := step_acc_none hs2 hn
      rcases List.mem_append.mp hg with hg | hg
      · exact hA hc g hg
      · have hgb : g = b := by simpa using hg
        subst hgb
        rintro ⟨_, hlt⟩
        omega
    · intro _
      rw [step_last_block hs2]
      simp

/-- C8 counterexample: a delivery in strictly increasing chain order on
which the stable-routing unwrap nevertheless panics — a single non-genesis
block of epoch 0 with first_unstable_epoch = 1 (a resume that starts
mid-epoch in an epoch that has since become stable).  Chain order alone
does not put the epoch's genesis block in the stream. -/
theorem c8_counterexample :
    List.Pairwise (fun a b : Block => a.date.before b.date)
      [⟨0, .Normal 0 0, []⟩] ∧
    run_blocks 1 init_state [⟨0, .Normal 0 0, []⟩] = none := by
  constructor
  · simp
  · rfl

/-- C8 (amended): under the precondition that blocks are delivered in
strictly increasing chain order and that every non-genesis block of a
stable epoch is preceded in the stream by a genesis block of its own epoch,
the unwrap of `cur_epoch_state` in the stable-routing branch never panics:
the whole loop runs to completion. -/
theorem c8_amended_no_panic (fue : Nat) (blocks : List Block)
    (_hord : List.Pairwise (fun a b : Block => a.date.before b.date) blocks)
    (hgp : gen_precedes fue [] blocks = true) :
    (run_blocks fue init_state blocks).isSome = true :=
  run_no_panic fue blocks [] init_state hgp
    (fun _ g hg => absurd hg (List.not_mem_nil g))
    (fun hc => absurd rfl hc)

/-- Witness for C8 (amended): a genesis-led stable stream runs without
panicking. -/
theorem c8_amended_no_panic_witness :
    (run_blocks 1 init_state [⟨1, .Genesis 0, [4]⟩, ⟨2, .Normal 0 0, [7]⟩]).isSome = true :=
  c8_amended_no_panic 1 [⟨1, .Genesis 0, [4]⟩, ⟨2, .Normal 0 0, [7]⟩]
    (by simp [BlockDate.before, BlockDate.get_epochid, BlockDate.slot_key])
    (by decide)

theorem header_to_blockhash_inj {a b : HeaderHash}
    (h : header_to_blockhash a = header_to_blockhash b) : a = b := by
  simpa [header_to_blockhash] using h

theorem before_genesis_le {m : Nat} {d : BlockDate}
    (h : (BlockDate.Genesis m).before d) : m ≤ d.get_epochid := by
  rcases h with h | ⟨h, _⟩
  · exact Nat.le_of_lt h
  · exact Nat.le_of_eq h

theorem before_genesis_epoch_lt {d : BlockDate} {m : Nat}
    (h : d.before (BlockDate.Genesis m)) : d.get_epochid < m := by
  rcases h with h | ⟨_, hs⟩
  · exact h
  · exact absurd hs (by simp [BlockDate.slot_key])

theorem flush_events_no_blob {n : Nat} {w : PackWriter} {prev : HeaderHash}
    {h r : Bytes} : Event.blob_write h r ∉ flush_events n w prev := by
  simp [flush_events]

theorem flush_events_no_append {n : Nat} {w : PackWriter} {prev : HeaderHash}
    {e : Nat} {h r : Bytes} : Event.pack_append e h r ∉ flush_events n w prev := by
  simp [flush_events]

theorem flush_events_epoch_mem {n : Nat} {w : PackWriter} {prev : HeaderHash}
    {m : Nat} {ph : Bytes}
    (h : Event.tag_write (.epoch m) ph ∈ flush_events n w prev) :
    m = n ∧ ph = pack_hash w := by
  simpa [flush_events] using h

theorem flush_events_head_mem {n : Nat} {w : PackWriter} {prev : HeaderHash}
    {v : Bytes} (h : Event.tag_write .head v ∈ flush_events n w prev) :
    v = header_to_blockhash prev := by
  simpa [flush_events] using h

theorem flush_events_get_head {n : Nat} {w : PackWriter} {prev : HeaderHash} :
    ∀ r v, (flush_events n w prev).get? r = some (Event.tag_write .head v) →
      r = 5 ∧ v = header_to_blockhash prev := by
  intro r v h
  rcases r with _ | _ | _ | _ | _ | _ | r
  · simp [flush_events] at h
  · simp [flush_events] at h
  · simp [flush_events] at h
  · simp [flush_events] at h
  · simp [flush_events] at h
  · exact ⟨rfl, (by simpa [flush_events] using h :
      header_to_blockhash prev = v).symm⟩
  · simp [flush_events] at h

theorem flush_events_get_two {n : Nat} {w : PackWriter} {prev : HeaderHash} :
    (flush_events n w prev).get? 2 = some (Event.tag_write (.epoch n) (pack_hash w)) :=
  rfl

/-- The partition invariant of the callback loop after the prefix `p` of
the stream has been processed.  It packages the relations between the loop
state, the trace produced so far, and `p` that the routing and ordering
claims rely on. -/
structure Inv (fue : Nat) (p : List Block) (s : SyncState) : Prop where
  last_ok : s.last_block = (p.getLast?).map Block.hash
  acc_none : s.cur_epoch_state = none →
    ∀ g ∈ p, ¬(g.date.get_epochid < fue ∧ g.date.is_genesis = true)
  acc_some : ∀ n w, s.cur_epoch_state = some (n, w) →
    n < fue ∧ (∃ g ∈ p, g.date = BlockDate.Genesis n) ∧
    (∀ g ∈ p, ∀ m, g.date = BlockDate.Genesis m → m < fue → m ≤ n)
  flushed : ∀ m, (∃ g ∈ p, g.date = BlockDate.Genesis m ∧ m < fue) →
    (∃ w, s.cur_epoch_state = some (m, w)) ∨
    (∃ ph, Event.tag_write (.epoch m) ph ∈ s.events)
  blob_char : ∀ h r, Event.blob_write h r ∈ s.events ↔
    ∃ b ∈ p, fue ≤ b.date.get_epochid ∧ h = header_to_blockhash b.hash ∧ r = b.raw
  append_char : ∀ e h r, Event.pack_append e h r ∈ s.events ↔
    ∃ b ∈ p, b.date.get_epochid < fue ∧ e = b.date.get_epochid ∧
      h = header_to_blockhash b.hash ∧ r = b.raw
  epoch_tag_char : ∀ m ph, Event.tag_write (.epoch m) ph ∈ s.events →
    ∃ g ∈ p, g.date = BlockDate.Genesis m ∧ m < fue
  head_val : ∀ v, Event.tag_write .head v ∈ s.events →
    ∃ b ∈ p, v = header_to_blockhash b.hash
  head_after_epoch : ∀ j2 hb,
    s.events.get? j2 = some (.tag_write .head (header_to_blockhash hb)) →
    ∀ b' ∈ p, b'.hash = hb → ∀ n, n < b'.date.get_epochid → n < fue →
    (∃ g ∈ p, g.date = BlockDate.Genesis n) →
    ∃ j1 ph, j1 < j2 ∧ s.events.get? j1 = some (.tag_write (.epoch n) ph)

theorem inv_init (fue : Nat) : Inv fue [] init_state := by
  refine ⟨rfl, ?_, ?_, ?_, ?_, ?_, ?_, ?_, ?_⟩
  · intro _ g hg
    exact absurd hg (List.not_mem_nil g)
  · intro n w h
    exact absurd h (by simp [init_state])
  · rintro m ⟨g, hg, _⟩
    exact absurd hg (List.not_mem_nil g)
  · intro h r
    simp [init_state]
  · intro e h r
    simp [init_state]
  · intro m ph h
    exact absurd h (by simp [init_state])
  · intro v h
    exact absurd h (by simp [init_state])
  · intro j2 hb h
    exact absurd h (by simp [init_state])

theorem step_cases {fue : Nat} {p : List Block} {s s2 : SyncState} {b : Block}
    (hinv : Inv fue p s)
    (hord : ∀ x ∈ p, x.date.before b.date)
    (hgpb : b.date.get_epochid < fue → b.date.is_genesis = false →
      ∃ g ∈ p, g.date = BlockDate.Genesis b.date.get_epochid)
    (hstep : step fue s b = some s2) :
    ∃ fe rt,
      s2.events = s.events ++ (fe ++ [rt]) ∧
      s2.last_block = some b.hash ∧
      ((fe = [] ∧ (b.date.is_genesis = false ∨ s.cur_epoch_state = none)) ∨
        (b.date.is_genesis = true ∧ ∃ n w pb,
          s.cur_epoch_state = some (n, w) ∧ p.getLast? = some pb ∧
          fe = flush_events n w pb.hash)) ∧
      ((fue ≤ b.date.get_epochid ∧
          rt = Event.blob_write (header_to_blockhash b.hash) b.raw ∧
          s2.cur_epoch_state = s.cur_epoch_state) ∨
        (b.date.get_epochid < fue ∧
          rt = Event.pack_append b.date.get_epochid (header_to_blockhash b.hash) b.raw ∧
          (∃ w2, s2.cur_epoch_state = some (b.date.get_epochid, w2)) ∧
          (b.date.is_genesis = false →
            ∃ w1, s.cur_epoch_state = some (b.date.get_epochid, w1)))) := by
  have hfe : ∀ (fe : List Event), route fue s fe b = some s2 →
      ∃ rt,
        s2.events = s.events ++ (fe ++ [rt]) ∧
        s2.last_block = some b.hash ∧
        ((fue ≤ b.date.get_epochid ∧
            rt = Event.blob_write (header_to_blockhash b.hash) b.raw ∧
            s2.cur_epoch_state = s.cur_epoch_state) ∨
          (b.date.get_epochid < fue ∧
            rt = Event.pack_append b.date.get_epochid (header_to_blockhash b.hash) b.raw ∧
            (∃ w2, s2.cur_epoch_state = some (b.date.get_epochid, w2)) ∧
            (b.date.is_genesis = false →
              ∃ w1, s.cur_epoch_state = some (b.date.get_epochid, w1)))) := by
    intro fe hroute
    by_cases hu : fue ≤ b.date.get_epochid
    · rw [route_eq_unstable hu] at hroute
      cases Option.some_inj.mp hroute
      exact ⟨_, by simp, rfl, Or.inl ⟨hu, rfl, rfl⟩⟩
    · have hu' : b.date.get_epochid < fue := Nat.not_le.mp hu
      by_cases hg : b.date.is_genesis = true
      · rw [route_eq_stable_genesis hu' hg] at hroute
        cases Option.some_inj.mp hroute
        refine ⟨_, by simp, rfl, Or.inr ⟨hu', rfl, ⟨_, rfl⟩, ?_⟩⟩
        intro hgf
        exact absurd hg (by rw [hgf]; simp)
      · have hg' : b.date.is_genesis = false := eq_false_of_ne_true hg
        rcases hc : s.cur_epoch_state with _ | ⟨n, w⟩
        · rw [route_eq_stable_none hu' hg' hc] at hroute
          exact absurd hroute (by simp)
        · have hne : n = b.date.get_epochid := by
            obtain ⟨g, hgmem, hgd⟩ := hgpb hu' hg'
            obtain ⟨_, ⟨g0, hg0, hg0d⟩, hmax⟩ := hinv.acc_some n w hc
            have h1 : b.date.get_epochid ≤ n := hmax g hgmem _ hgd hu'
            have h2 : n ≤ b.date.get_epochid := by
              have := hord g0 hg0
              rw [hg0d] at this
              exact before_genesis_le this
            omega
          subst hne
          rw [route_eq_stable_cont hu' hg' hc] at hroute
          cases Option.some_inj.mp hroute
          exact ⟨_, by simp, rfl, Or.inr ⟨hu', rfl, ⟨_, rfl⟩, fun _ => ⟨w, rfl⟩⟩⟩
  by_cases hg : b.date.is_genesis = true
  · rcases hc : s.cur_epoch_state with _ | ⟨n, w⟩
    · rw [step_eq_genesis_no_acc hg hc] at hstep
      obtain ⟨rt, h1, h2, h3⟩ := hfe [] hstep
      rw [hc] at h3
      exact ⟨[], rt, h1, h2, Or.inl ⟨rfl, Or.inr rfl⟩, h3⟩
    · rcases hl : s.last_block with _ | prev
      · rw [step_eq_flush_no_last hg hc hl] at hstep
        exact absurd hstep (by simp)
      · have hpb : ∃ pb, p.getLast? = some pb ∧ pb.hash = prev := by
          have := hinv.last_ok
          rw [hl] at this
          exact Option.map_eq_some'.mp this.symm
        obtain ⟨pb, hpb1, hpb2⟩ := hpb
        rw [step_eq_flush hg hc hl] at hstep
        obtain ⟨rt, h1, h2, h3⟩ := hfe (flush_events n w prev) hstep
        rw [hc] at h3
        exact ⟨flush_events n w prev, rt, h1, h2,
          Or.inr ⟨hg, n, w, pb, rfl, hpb1, by rw [hpb2]⟩, h3⟩
  · have hg' : b.date.is_genesis = false := eq_false_of_ne_true hg
    rw [step_eq_no_flush hg'] at hstep
    obtain ⟨rt, h1, h2, h3⟩ := hfe [] hstep
    exact ⟨[], rt, h1, h2, Or.inl ⟨rfl, Or.inl hg'⟩, h3⟩

theorem getLast?_mem_self {α : Type} {l : List α} {a : α}
    (h : l.getLast? = some a) : a ∈ l := by
  induction l with
  | nil => simp at h
  | cons x xs ih =>
    rcases xs with _ | ⟨y, ys⟩
    · have : x = a := by simpa using h
      rw [this]
      exact List.mem_cons_self a []
    · rw [List.getLast?_cons_cons] at h
      exact List.mem_cons_of_mem x (ih h)

theorem genesis_date_eq {d : BlockDate} (h : d.is_genesis = true) :
    d = BlockDate.Genesis d.get_epochid := by
  cases d
  · rfl
  · exact absurd h (by simp [BlockDate.is_genesis])

theorem flush_events_length {n : Nat} {w : PackWriter} {prev : HeaderHash} :
    (flush_events n w prev).length = 6 := rfl

theorem inv_step {fue : Nat} {p : List Block} {s s2 : SyncState} {b : Block}
    (hinv : Inv fue p s)
    (hord : ∀ x ∈ p, x.date.before b.date)
    (hgpb : b.date.get_epochid < fue → b.date.is_genesis = false →
      ∃ g ∈ p, g.date = BlockDate.Genesis b.date.get_epochid)
    (hnodup : b.hash ∉ p.map Block.hash)
    (hstep : step fue s b = some s2) :
    Inv fue (p ++ [b]) s2 := by
  obtain ⟨fe, rt, hev, hlast, hfe, hrt⟩ := step_cases hinv hord hgpb hstep
  have hrt_not_tag : ∀ nm v, rt ≠ Event.tag_write nm v := by
    intro nm v
    rcases hrt with ⟨_, hr, _⟩ | ⟨_, hr, _, _⟩ <;> rw [hr] <;> simp
  have hmem : ∀ x, x ∈ s2.events ↔ x ∈ s.events ∨ x ∈ fe ∨ x = rt := by
    intro x
    rw [hev]
    simp [List.mem_append]
  have hbne : ∀ b0 ∈ p, b0.hash ≠ b.hash := by
    intro b0 hb0 hh
    exact hnodup (hh ▸ List.mem_map_of_mem Block.hash hb0)
  refine ⟨?_, ?_, ?_, ?_, ?_, ?_, ?_, ?_, ?_⟩
  -- last_ok
  · rw [hlast, List.getLast?_concat]
    rfl
  -- acc_none
  · intro hn g hg
    rcases hrt with ⟨hu, _, hcur⟩ | ⟨_, _, ⟨w2, hw2⟩, _⟩
    · rcases List.mem_append.mp hg with hgp | hgb
      · exact hinv.acc_none (hcur.symm.trans hn) g hgp
      · have hgb' : g = b := by simpa using hgb
        subst hgb'
        rintro ⟨hlt, _⟩
        omega
    · rw [hn] at hw2
      exact absurd hw2 (by simp)
  -- acc_some
  · intro n' w' hc'
    rcases hrt with ⟨hu, _, hcur⟩ | ⟨hlt, _, ⟨w2, hw2⟩, _⟩
    · have hsc : s.cur_epoch_state = some (n', w') := hcur.symm.trans hc'
      obtain ⟨h1, ⟨g, hg, hgd⟩, hmax⟩ := hinv.acc_some n' w' hsc
      refine ⟨h1, ⟨g, List.mem_append_left _ hg, hgd⟩, ?_⟩
      intro g0 hg0 m hm hmf
      rcases List.mem_append.mp hg0 with hg0p | hg0b
      · exact hmax g0 hg0p m hm hmf
      · have hg0b' : g0 = b := by simpa using hg0b
        subst hg0b'
        have : g0.date.get_epochid = m := by rw [hm]; rfl
        omega
    · have hne : n' = b.date.get_epochid := by
        have h0 : (b.date.get_epochid, w2) = (n', w') := Option.some_inj.mp (hw2.symm.trans hc')
        exact (congrArg Prod.fst h0).symm
      subst hne
      refine ⟨hlt, ?_, ?_⟩
      · by_cases hbg : b.date.is_genesis = true
        · exact ⟨b, List.mem_append_right _ (by simp), genesis_date_eq hbg⟩
        · obtain ⟨g, hg, hgd⟩ := hgpb hlt (eq_false_of_ne_true hbg)
          exact ⟨g, List.mem_append_left _ hg, hgd⟩
      · intro g0 hg0 m hm hmf
        rcases List.mem_append.mp hg0 with hg0p | hg0b
        · have := hord g0 hg0p
          rw [hm] at this
          exact before_genesis_le this
        · have hg0b' : g0 = b := by simpa using hg0b
          subst hg0b'
          have : g0.date.get_epochid = m := by rw [hm]; rfl
          omega
  -- flushed
  · rintro m ⟨g, hg, hgd, hmf⟩
    rcases List.mem_append.mp hg with hgp | hgb
    · rcases hinv.flushed m ⟨g, hgp, hgd, hmf⟩ with ⟨w', hw'⟩ | ⟨ph, hph⟩
      · rcases hrt with ⟨hu, _, hcur⟩ | ⟨hlt, _, ⟨w2, hw2⟩, hng⟩
        · exact Or.inl ⟨w', hcur.trans hw'⟩
        · by_cases hbg : b.date.is_genesis = true
          · rcases hfe with ⟨_, hside⟩ | ⟨_, n0, w0, pb, hacc0, _, hfeq⟩
            · rcases hside with hside | hside
              · rw [hbg] at hside
                exact absurd hside (by simp)
              · rw [hside] at hw'
                exact absurd hw' (by simp)
            · have hn0 : n0 = m := by
                have := hacc0.symm.trans hw'
                exact (Prod.mk.injEq _ _ _ _ ▸ Option.some_inj.mp this).1
              refine Or.inr ⟨pack_hash w0, (hmem _).mpr (Or.inr (Or.inl ?_))⟩
              rw [hfeq, ← hn0]
              simp [flush_events]
          · obtain ⟨w1, hw1⟩ := hng (eq_false_of_ne_true hbg)
            have hmeq : m = b.date.get_epochid := by
              have := hw'.symm.trans hw1
              exact (Prod.mk.injEq _ _ _ _ ▸ Option.some_inj.mp this).1
            exact Or.inl ⟨w2, by rw [hw2, hmeq]⟩
      · exact Or.inr ⟨ph, (hmem _).mpr (Or.inl hph)⟩
    · have hgb' : g = b := by simpa using hgb
      subst hgb'
      have hbg : g.date.is_genesis = true := by rw [hgd]; rfl
      have hbe : g.date.get_epochid = m := by rw [hgd]; rfl
      rcases hrt with ⟨hu, _, _⟩ | ⟨_, _, ⟨w2, hw2⟩, _⟩
      · omega
      · exact Or.inl ⟨w2, by rw [hw2, hbe]⟩
  -- blob_char
  · intro h r
    constructor
    · intro hx
      rcases (hmem _).mp hx with hx | hx | hx
      · obtain ⟨b0, hb0, hu0, hh, hr⟩ := (hinv.blob_char h r).mp hx
        exact ⟨b0, List.mem_append_left _ hb0, hu0, hh, hr⟩
      · rcases hfe with ⟨hfe0, _⟩ | ⟨_, n0, w0, pb, _, _, hfeq⟩
        · rw [hfe0] at hx
          exact absurd hx (List.not_mem_nil _)
        · rw [hfeq] at hx
          exact absurd hx flush_events_no_blob
      · rcases hrt with ⟨hu, hreq, _⟩ | ⟨_, hreq, _, _⟩
        · rw [hreq] at hx
          have hinj := Event.blob_write.injEq h r (header_to_blockhash b.hash) b.raw ▸ hx
          obtain ⟨hh, hr⟩ := by exact_mod_cast hinj
          exact ⟨b, List.mem_append_right _ (by simp), hu, hh, hr⟩
        · rw [hreq] at hx
          exact absurd hx (by simp)
    · rintro ⟨b0, hb0, hu0, hh, hr⟩
      rcases List.mem_append.mp hb0 with hb0p | hb0b
      · exact (hmem _).mpr (Or.inl ((hinv.blob_char h r).mpr ⟨b0, hb0p, hu0, hh, hr⟩))
      · have hb0b' : b0 = b := by simpa using hb0b
        subst hb0b'
        rcases hrt with ⟨_, hreq, _⟩ | ⟨hlt, _, _, _⟩
        · exact (hmem _).mpr (Or.inr (Or.inr (by rw [hreq, hh, hr])))
        · omega
  -- append_char
  · intro e h r
    constructor
    · intro hx
      rcases (hmem _).mp hx with hx | hx | hx
      · obtain ⟨b0, hb0, hu0, he, hh, hr⟩ := (hinv.append_char e h r).mp hx
        exact ⟨b0, List.mem_append_left _ hb0, hu0, he, hh, hr⟩
      · rcases hfe with ⟨hfe0, _⟩ | ⟨_, n0, w0, pb, _, _, hfeq⟩
        · rw [hfe0] at hx
          exact absurd hx (List.not_mem_nil _)
        · rw [hfeq] at hx
          exact absurd hx flush_events_no_append
      · rcases hrt with ⟨_, hreq, _⟩ | ⟨hlt, hreq, _, _⟩
        · rw [hreq] at hx
          exact absurd hx (by simp)
        · rw [hreq] at hx
          have : e = b.date.get_epochid ∧ h = header_to_blockhash b.hash ∧ r = b.raw := by
            simpa using hx
          exact ⟨b, List.mem_append_right _ (by simp), hlt, this.1, this.2.1, this.2.2⟩
    · rintro ⟨b0, hb0, hu0, he, hh, hr⟩
      rcases List.mem_append.mp hb0 with hb0p | hb0b
      · exact (hmem _).mpr (Or.inl ((hinv.append_char e h r).mpr ⟨b0, hb0p, hu0, he, hh, hr⟩))
      · have hb0b' : b0 = b := by simpa using hb0b
        subst hb0b'
        rcases hrt with ⟨hu, _, _⟩ | ⟨_, hreq, _, _⟩
        · omega
        · exact (hmem _).mpr (Or.inr (Or.inr (by rw [hreq, hh, hr, he])))
  -- epoch_tag_char
  · intro m ph hx
    rcases (hmem _).mp hx with hx | hx | hx
    · obtain ⟨g, hg, hgd, hmf⟩ := hinv.epoch_tag_char m ph hx
      exact ⟨g, List.mem_append_left _ hg, hgd, hmf⟩
    · rcases hfe with ⟨hfe0, _⟩ | ⟨_, n0, w0, pb, hacc0, _, hfeq⟩
      · rw [hfe0] at hx
        exact absurd hx (List.not_mem_nil _)
      · rw [hfeq] at hx
        obtain ⟨hm, _⟩ := flush_events_epoch_mem hx
        obtain ⟨hnf, ⟨g, hg, hgd⟩, _⟩ := hinv.acc_some n0 w0 hacc0
        exact ⟨g, List.mem_append_left _ hg, by rw [hgd, hm], hm ▸ hnf⟩
    · exact absurd hx.symm (hrt_not_tag _ _)
  -- head_val
  · intro v hx
    rcases (hmem _).mp hx with hx | hx | hx
    · obtain ⟨b0, hb0, hv⟩ := hinv.head_val v hx
      exact ⟨b0, List.mem_append_left _ hb0, hv⟩
    · rcases hfe with ⟨hfe0, _⟩ | ⟨_, n0, w0, pb, _, hpb0, hfeq⟩
      · rw [hfe0] at hx
        exact absurd hx (List.not_mem_nil _)
      · rw [hfeq] at hx
        exact ⟨pb, List.mem_append_left _ (getLast?_mem_self hpb0),
          flush_events_head_mem hx⟩
    · exact absurd hx.symm (hrt_not_tag _ _)
  -- head_after_epoch
  · intro j2 hb hj2 b' hb' hbh n hn hnf hgen
    have hgenp : ∃ g ∈ p, g.date = BlockDate.Genesis n := by
      rcases hgen with ⟨g, hg, hgd⟩
      rcases List.mem_append.mp hg with hgp | hgb
      · exact ⟨g, hgp, hgd⟩
      · exfalso
        have hgb' : g = b := by simpa using hgb
        have hbd : b.date = BlockDate.Genesis n := hgb' ▸ hgd
        rcases List.mem_append.mp hb' with hbp | hbb
        · have hbefore := hord b' hbp
          rw [hbd] at hbefore
          have := before_genesis_epoch_lt hbefore
          omega
        · have hbb' : b' = b := by simpa using hbb
          have : b'.date.get_epochid = n := by rw [hbb', hbd]; rfl
          omega
    by_cases hj : j2 < s.events.length
    · -- the HEAD write lies in the old trace
      have hj2old : s.events.get? j2 = some (.tag_write .head (header_to_blockhash hb)) := by
        rw [hev, List.get?_append hj] at hj2
        exact hj2
      have hb'p : b' ∈ p := by
        rcases List.mem_append.mp hb' with hbp | hbb
        · exact hbp
        · exfalso
          have hbb' : b' = b := by simpa using hbb
          subst hbb'
          obtain ⟨b0, hb0, hveq⟩ := hinv.head_val _ (List.get?_mem hj2old)
          have : hb = b0.hash := header_to_blockhash_inj hveq
          exact hbne b0 hb0 (by rw [← this, hbh])
      obtain ⟨j1, ph, hj1lt, hj1e⟩ :=
        hinv.head_after_epoch j2 hb hj2old b' hb'p hbh n hn hnf hgenp
      refine ⟨j1, ph, hj1lt, ?_⟩
      rw [hev, List.get?_append (Nat.lt_trans hj1lt hj)]
      exact hj1e
    · -- the HEAD write lies in the events of this step: only a flush emits one
      have hjge : s.events.length ≤ j2 := Nat.le_of_not_lt hj
      have hj2new : (fe ++ [rt]).get? (j2 - s.events.length) =
          some (.tag_write .head (header_to_blockhash hb)) := by
        rw [hev, List.get?_append_right hjge] at hj2
        exact hj2
      rcases hfe with ⟨hfe0, _⟩ | ⟨hbg, n0, w0, pb, hacc0, hpb0, hfeq⟩
      · exfalso
        rw [hfe0] at hj2new
        rcases hm : j2 - s.events.length with _ | m
        · rw [hm] at hj2new
          have : rt = Event.tag_write .head (header_to_blockhash hb) := by
            simpa using hj2new
          exact hrt_not_tag _ _ this
        · rw [hm] at hj2new
          exact absurd hj2new (by simp)
      · rw [hfeq] at hj2new
        by_cases hm6 : j2 - s.events.length < 6
        · have hfget : (flush_events n0 w0 pb.hash).get? (j2 - s.events.length) =
              some (.tag_write .head (header_to_blockhash hb)) := by
            rw [List.get?_append (by rw [flush_events_length]; exact hm6)] at hj2new
            exact hj2new
          obtain ⟨hm5, hveq⟩ := flush_events_get_head _ _ hfget
          have hj2eq : j2 = s.events.length + 5 := by omega
          rcases hinv.flushed n ⟨hgenp.choose, hgenp.choose_spec.1,
              hgenp.choose_spec.2, hnf⟩ with ⟨w', hw'⟩ | ⟨ph, hph⟩
          · -- the epoch being flushed right now is n itself
            have hn0 : n0 = n := by
              have := hacc0.symm.trans hw'
              exact (Prod.mk.injEq _ _ _ _ ▸ Option.some_inj.mp this).1
            refine ⟨s.events.length + 2, pack_hash w0, by omega, ?_⟩
            rw [hev, List.get?_append_right (by omega)]
            have h2 : s.events.length + 2 - s.events.length = 2 := by omega
            rw [h2, List.get?_append (by rw [hfeq, flush_events_length]; omega), hfeq]
            rw [flush_events_get_two, hn0]
          · -- EPOCH_n was already written strictly inside the old trace
            obtain ⟨j1, hj1e⟩ := List.mem_iff_get?.mp hph
            have hj1lt : j1 < s.events.length := by
              by_contra hc
              rw [List.get?_eq_none.mpr (Nat.le_of_not_lt hc)] at hj1e
              exact absurd hj1e (by simp)
            refine ⟨j1, ph, by omega, ?_⟩
            rw [hev, List.get?_append hj1lt]
            exact hj1e
        · exfalso
          have h6le : (6 : Nat) ≤ j2 - s.events.length := Nat.le_of_not_lt hm6
          rw [List.get?_append_right (by rw [flush_events_length]; exact h6le)] at hj2new
          rw [flush_events_length] at hj2new
          rcases hm : j2 - s.events.length - 6 with _ | m
          · rw [hm] at hj2new
            have : rt = Event.tag_write .head (header_to_blockhash hb) := by
              simpa using hj2new
            exact hrt_not_tag _ _ this
          · rw [hm] at hj2new
            exact absurd hj2new (by simp)

theorem run_inv (fue : Nat) :
    ∀ (rest p : List Block) (s : SyncState),
      Inv fue p s →
      List.Pairwise (fun a b : Block => a.date.before b.date) (p ++ rest) →
      gen_precedes fue p rest = true →
      ((p ++ rest).map Block.hash).Nodup →
      ∀ s2, run_blocks fue s rest = some s2 → Inv fue (p ++ rest) s2 := by
  intro rest
  induction rest with
  | nil =>
    intro p s hinv _ _ _ s2 h
    have hss : s = s2 := Option.some_inj.mp (by simpa [run_blocks] using h)
    rw [List.append_nil]
    exact hss ▸ hinv
  | cons b r ih =>
    intro p s hinv hord hgp hnodup s2 h
    rw [run_blocks] at h
    rcases hs : step fue s b with _ | s1 <;> rw [hs] at h
    · exact absurd h (by simp)
    · obtain ⟨hp1, hp2, hp3⟩ := List.pairwise_append.mp hord
      have hordb : ∀ x ∈ p, x.date.before b.date :=
        fun x hx => hp3 x hx b (by simp)
      rw [gen_precedes, Bool.and_eq_true] at hgp
      obtain ⟨hgb, hgr⟩ := hgp
      have hgpb : b.date.get_epochid < fue → b.date.is_genesis = false →
          ∃ g ∈ p, g.date = BlockDate.Genesis b.date.get_epochid := by
        intro hlt hng
        rw [if_pos ⟨hlt, hng⟩] at hgb
        obtain ⟨g, hgmem, hgd⟩ := List.any_eq_true.mp hgb
        exact ⟨g, hgmem, of_decide_eq_true hgd⟩
      have hnod_b : b.hash ∉ p.map Block.hash := by
        have h0 := hnodup
        rw [List.map_append] at h0
        obtain ⟨_, _, hdisj⟩ := List.nodup_append.mp h0
        intro hmem
        exact hdisj hmem (by simp)
      have hinv1 := inv_step hinv hordb hgpb hnod_b hs
      have heq : p ++ b :: r = (p ++ [b]) ++ r := by simp
      have hord2 := hord
      rw [heq] at hord2
      have hnodup2 := hnodup
      rw [heq] at hnodup2
      rw [heq]
      exact ih (p ++ [b]) s1 hinv1 hord2 hgr hnodup2 s2 h

theorem run_inv_whole (fue : Nat) (blocks : List Block) (s : SyncState)
    (hord : List.Pairwise (fun a b : Block => a.date.before b.date) blocks)
    (hgp : gen_precedes fue [] blocks = true)
    (hnodup : (blocks.map Block.hash).Nodup)
    (hrun : run_blocks fue init_state blocks = some s) :
    Inv fue blocks s := by
  have h := run_inv fue blocks [] init_state (inv_init fue)
    (by simpa using hord) hgp (by simpa using hnodup) s hrun
  simpa using h

/-- C2: for every delivered block, under the delivery contract (strictly
increasing chain order, each stable epoch's genesis delivered before its
other blocks, distinct hashes) and a completed loop: an unstable block
(`epoch ≥ first_unstable_epoch`) is written to the loose-block store keyed
by its hash and is never appended to any accumulator; a stable block is
appended to the accumulator of its own epoch and its hash is never written
to the loose-block store.  In particular no block is both packed and
stored loose. -/
theorem c2_stability_routing (fue : Nat) (blocks : List Block) (s : SyncState)
    (hord : List.Pairwise (fun a b : Block => a.date.before b.date) blocks)
    (hgp : gen_precedes fue [] blocks = true)
    (hnodup : (blocks.map Block.hash).Nodup)
    (hrun : run_blocks fue init_state blocks = some s) :
    ∀ b ∈ blocks,
      (fue ≤ b.date.get_epochid →
        Event.blob_write (header_to_blockhash b.hash) b.raw ∈ s.events ∧
        ∀ e r, Event.pack_append e (header_to_blockhash b.hash) r ∉ s.events) ∧
      (b.date.get_epochid < fue →
        Event.pack_append b.date.get_epochid (header_to_blockhash b.hash) b.raw ∈ s.events ∧
        (∀ e r, Event.pack_append e (header_to_blockhash b.hash) r ∈ s.events →
          e = b.date.get_epochid ∧ r = b.raw) ∧
        ∀ r, Event.blob_write (header_to_blockhash b.hash) r ∉ s.events) := by
  have hinv : Inv fue blocks s := run_inv_whole fue blocks s hord hgp hnodup hrun
  intro b hbmem
  constructor
  · intro hu
    constructor
    · exact (hinv.blob_char _ _).mpr ⟨b, hbmem, hu, rfl, rfl⟩
    · intro e r hmem
      obtain ⟨b0, hb0, hlt0, _, hh, _⟩ := (hinv.append_char e _ r).mp hmem
      have hhash : b.hash = b0.hash := header_to_blockhash_inj hh
      have hbeq : b0 = b := List.inj_on_of_nodup_map hnodup hb0 hbmem hhash.symm
      rw [hbeq] at hlt0
      omega
  · intro hlt
    refine ⟨?_, ?_, ?_⟩
    · exact (hinv.append_char _ _ _).mpr ⟨b, hbmem, hlt, rfl, rfl, rfl⟩
    · intro e r hmem
      obtain ⟨b0, hb0, _, he, hh, hr⟩ := (hinv.append_char e _ r).mp hmem
      have hhash : b.hash = b0.hash := header_to_blockhash_inj hh
      have hbeq : b0 = b := List.inj_on_of_nodup_map hnodup hb0 hbmem hhash.symm
      rw [hbeq] at he hr
      exact ⟨he, hr⟩
    · intro r hmem
      obtain ⟨b0, hb0, hu0, hh, _⟩ := (hinv.blob_char _ r).mp hmem
      have hhash : b.hash = b0.hash := header_to_blockhash_inj hh
      have hbeq : b0 = b := List.inj_on_of_nodup_map hnodup hb0 hbmem hhash.symm
      rw [hbeq] at hu0
      omega

/-- Witness for C2: with fue = 1, the two epoch-0 blocks are appended to
the epoch-0 accumulator and never stored loose, while the epoch-1 genesis
block is stored loose and never appended. -/
theorem c2_stability_routing_witness :
    ∃ s, run_blocks 1 init_state
        [⟨1, .Genesis 0, [4]⟩, ⟨2, .Normal 0 0, [5]⟩, ⟨3, .Genesis 1, [6]⟩] = some s ∧
      Event.pack_append 0 [2] [5] ∈ s.events ∧
      (∀ r, Event.blob_write [2] r ∉ s.events) ∧
      Event.blob_write [3] [6] ∈ s.events ∧
      (∀ e r, Event.pack_append e [3] r ∉ s.events) := by
  have hc2 := c2_stability_routing 1
    [⟨1, .Genesis 0, [4]⟩, ⟨2, .Normal 0 0, [5]⟩, ⟨3, .Genesis 1, [6]⟩]
    ⟨some (0, ⟨[([1], [4]), ([2], [5])]⟩), some 3,
      [.pack_append 0 [1] [4], .pack_append 0 [2] [5], .persist_pack [1, 2],
       .render_index [1, 2], .tag_write (.epoch 0) [1, 2], .epoch_create [1, 2] 0,
       .refpack_epoch_pack (.epoch 0), .tag_write .head [2], .blob_write [3] [6]]⟩
    (by decide) (by decide) (by decide) (by decide)
  refine ⟨⟨some (0, ⟨[([1], [4]), ([2], [5])]⟩), some 3,
      [.pack_append 0 [1] [4], .pack_append 0 [2] [5], .persist_pack [1, 2],
       .render_index [1, 2], .tag_write (.epoch 0) [1, 2], .epoch_create [1, 2] 0,
       .refpack_epoch_pack (.epoch 0), .tag_write .head [2], .blob_write [3] [6]]⟩,
    by decide, ?_, ?_, ?_, ?_⟩
  · exact ((hc2 ⟨2, .Normal 0 0, [5]⟩ (by decide)).2 (by decide)).1
  · exact ((hc2 ⟨2, .Normal 0 0, [5]⟩ (by decide)).2 (by decide)).2.2
  · exact ((hc2 ⟨3, .Genesis 1, [6]⟩ (by decide)).1 (by decide)).1
  · exact ((hc2 ⟨3, .Genesis 1, [6]⟩ (by decide)).1 (by decide)).2

theorem net_sync_loop_inv {fue : Nat} {blocks : List Block} {sf : SyncState}
    (h : net_sync_loop fue blocks = some sf) :
    ∃ s, run_blocks fue init_state blocks = some s ∧
      ((s.last_block = none ∧ sf = s) ∨
       (∃ hl, s.last_block = some hl ∧
         sf = { s with events := s.events ++
           [Event.tag_write TagName.head (header_to_blockhash hl)] })) := by
  unfold net_sync_loop at h
  rcases hr : run_blocks fue init_state blocks with _ | s
  · rw [hr] at h
    exact absurd h (by simp)
  · rw [hr] at h
    have h2 : (match s.last_block with
        | none => some s
        | some hh => some { s with events := s.events ++
            [Event.tag_write TagName.head (header_to_blockhash hh)] }) = some sf := h
    rcases hl : s.last_block with _ | hlast
    · rw [hl] at h2
      exact ⟨s, rfl, Or.inl ⟨hl, (Option.some_inj.mp h2).symm⟩⟩
    · rw [hl] at h2
      refine ⟨s, rfl, Or.inr ⟨hlast, hl, ?_⟩⟩
      rw [hl]
      exact (Option.some_inj.mp h2).symm

/-- C5: in any completed run under the delivery contract, whenever the
`EPOCH_n` tag has been written during the session, every `HEAD` write whose
value is a block strictly beyond epoch n (so the checkpoint has advanced
past epoch n's last block) is preceded in the trace by an `EPOCH_n` tag
write: `HEAD` never advances past a flushed epoch before that epoch's tag
write has completed. -/
theorem c5_flush_before_head (fue : Nat) (blocks : List Block) (sf : SyncState)
    (hord : List.Pairwise (fun a b : Block => a.date.before b.date) blocks)
    (hgp : gen_precedes fue [] blocks = true)
    (hnodup : (blocks.map Block.hash).Nodup)
    (hrun : net_sync_loop fue blocks = some sf)
    (n : Nat) (hflushed : ∃ ph, Event.tag_write (.epoch n) ph ∈ sf.events)
    (j2 : Nat) (hb : HeaderHash)
    (hj2 : sf.events.get? j2 = some (.tag_write .head (header_to_blockhash hb)))
    (b' : Block) (hb' : b' ∈ blocks) (hbh : b'.hash = hb)
    (hlt : n < b'.date.get_epochid) :
    ∃ j1 ph, j1 < j2 ∧ sf.events.get? j1 = some (.tag_write (.epoch n) ph) := by
  obtain ⟨s, hr, hcase⟩ := net_sync_loop_inv hrun
  have hinv : Inv fue blocks s := run_inv_whole fue blocks s hord hgp hnodup hr
  rcases hcase with ⟨hl, hss⟩ | ⟨hlast, hl, hsf⟩
  · subst hss
    obtain ⟨ph0, hph0⟩ := hflushed
    obtain ⟨g, hg, hgd, hnf⟩ := hinv.epoch_tag_char n ph0 hph0
    exact hinv.head_after_epoch j2 hb hj2 b' hb' hbh n hlt hnf ⟨g, hg, hgd⟩
  · have hevents : sf.events = s.events ++
        [.tag_write .head (header_to_blockhash hlast)] := by rw [hsf]
    obtain ⟨ph0, hph0⟩ := hflushed
    have hph0' : Event.tag_write (.epoch n) ph0 ∈ s.events := by
      rw [hevents] at hph0
      rcases List.mem_append.mp hph0 with h0 | h0
      · exact h0
      · exact absurd h0 (by simp)
    obtain ⟨g, hg, hgd, hnf⟩ := hinv.epoch_tag_char n ph0 hph0'
    by_cases hj : j2 < s.events.length
    · have hj2old : s.events.get? j2 =
          some (.tag_write .head (header_to_blockhash hb)) := by
        rw [hevents, List.get?_append hj] at hj2
        exact hj2
      obtain ⟨j1, ph, hj1lt, hj1e⟩ :=
        hinv.head_after_epoch j2 hb hj2old b' hb' hbh n hlt hnf ⟨g, hg, hgd⟩
      refine ⟨j1, ph, hj1lt, ?_⟩
      rw [hevents, List.get?_append (Nat.lt_trans hj1lt hj)]
      exact hj1e
    · obtain ⟨j1, hj1e⟩ := List.mem_iff_get?.mp hph0'
      have hj1lt : j1 < s.events.length := by
        by_contra hc
        rw [List.get?_eq_none.mpr (Nat.le_of_not_lt hc)] at hj1e
        exact absurd hj1e (by simp)
      refine ⟨j1, ph0, by omega, ?_⟩
      rw [hevents, List.get?_append hj1lt]
      exact hj1e

/-- Witness for C5: in the concrete run that flushes epoch 0 and ends at
the epoch-1 genesis block, the `HEAD` write at index 9 (value: the epoch-1
block) is preceded by the `EPOCH_0` tag write (at index 4). -/
theorem c5_flush_before_head_witness :
    ∃ sf, net_sync_loop 1
        [⟨1, .Genesis 0, [4]⟩, ⟨2, .Normal 0 0, [5]⟩, ⟨3, .Genesis 1, [6]⟩] = some sf ∧
      ∃ j1 ph, j1 < 9 ∧ sf.events.get? j1 = some (.tag_write (.epoch 0) ph) := by
  refine ⟨⟨some (0, ⟨[([1], [4]), ([2], [5])]⟩), some 3,
      [.pack_append 0 [1] [4], .pack_append 0 [2] [5], .persist_pack [1, 2],
       .render_index [1, 2], .tag_write (.epoch 0) [1, 2], .epoch_create [1, 2] 0,
       .refpack_epoch_pack (.epoch 0), .tag_write .head [2], .blob_write [3] [6],
       .tag_write .head [3]]⟩, by decide, ?_⟩
  exact c5_flush_before_head 1
    [⟨1, .Genesis 0, [4]⟩, ⟨2, .Normal 0 0, [5]⟩, ⟨3, .Genesis 1, [6]⟩] _
    (by decide) (by decide) (by decide) (by decide) 0 ⟨[1, 2], by decide⟩ 9 3 (by decide)
    ⟨3, .Genesis 1, [6]⟩ (by decide) rfl (by decide)

end CardanoSync
